import Mathlib

/-!
Verification development for the keyword-suggestion harvester
(`src/harvester/keyword_harvester.py`).

The embedding follows the source:

* Python `str.lower()` / `str.strip()` become `pyLower` / `pyStrip`
  (character-list maps and whitespace trimming at both ends).
* The JSON payload of the autocomplete endpoint is modelled by `JVal`
  (JSON numbers restricted to integers, which is what relevance scores are).
* The HTTP layer is an oracle `String → HttpResult`; `fetchSuggestions`
  is the embedding of `KeywordHarvester._fetch_suggestions`, returning both
  the result list and the number of rate-limit sleeps performed.
  Expressions on which Python raises (and the broad `except` then catches)
  are tracked with `Option`: `none` means the exception path.
* `harvest_keywords` is embedded as a fuel-indexed loop over an explicit
  state `{queue, all_keywords, keyword_data}`, parameterised by an arbitrary
  suggestion-fetch function (the loop never inspects how suggestions were
  produced).  Python's stable `list.sort(key=relevance, reverse=True)` is
  modelled by `List.mergeSort` with the descending comparator.
-/

namespace Harvester

open List

/-! Python string primitives. -/

/-- Python `s.lower()`: lower-case every character. -/
def pyLower (s : String) : String :=
  ⟨s.data.map Char.toLower⟩

/-- Trim whitespace from both ends of a character list (Python `str.strip()`). -/
def stripL (l : List Char) : List Char :=
  ((l.dropWhile Char.isWhitespace).reverse.dropWhile Char.isWhitespace).reverse

/-- Python `s.strip()`. -/
def pyStrip (s : String) : String :=
  ⟨stripL s.data⟩

/-- Normalisation applied to fetched suggestions: `suggestion['keyword'].lower().strip()`
(line 278 of `keyword_harvester.py`). -/
def normKw (s : String) : String :=
  pyStrip (pyLower s)

/-- Normalisation applied to seeds: `seed.strip().lower()`
(lines 218–219 of `keyword_harvester.py`). -/
def normSeed (s : String) : String :=
  pyLower (pyStrip s)

/-! The two normalisation orders agree: lower-casing never changes
whether a character is whitespace. -/

theorem isWhitespace_eq_false_of_ge (c : Char) (h : 65 ≤ c.toNat) :
    c.isWhitespace = false := by
  simp only [Char.isWhitespace, Bool.or_eq_false_iff, decide_eq_false_iff_not]
  refine ⟨⟨⟨?_, ?_⟩, ?_⟩, ?_⟩ <;> rintro rfl <;> exact absurd h (by decide)

theorem isWhitespace_ofNat_eq_false (m : Nat) (h1 : 97 ≤ m) (h2 : m ≤ 122) :
    (Char.ofNat m).isWhitespace = false := by
  interval_cases m <;> decide

theorem isWhitespace_toLower (c : Char) :
    c.toLower.isWhitespace = c.isWhitespace := by
  by_cases h : c.toNat ≥ 65 ∧ c.toNat ≤ 90
  · have hl : c.toLower = Char.ofNat (c.toNat + 32) := by
      simp [Char.toLower, h]
    rw [hl, isWhitespace_ofNat_eq_false _ (by omega) (by omega),
      isWhitespace_eq_false_of_ge c (by omega)]
  · have hl : c.toLower = c := by
      simp [Char.toLower, h]
    rw [hl]

theorem stripL_map_toLower (l : List Char) :
    stripL (l.map Char.toLower) = (stripL l).map Char.toLower := by
  have hp : Char.isWhitespace ∘ Char.toLower = Char.isWhitespace := by
    funext c
    exact isWhitespace_toLower c
  simp only [stripL, List.dropWhile_map, hp, ← List.map_reverse]

/-- The seed-site and suggestion-site normalisations coincide. -/
theorem normKw_eq_normSeed (s : String) : normKw s = normSeed s := by
  simp only [normKw, normSeed, pyLower, pyStrip]
  exact congrArg String.mk (stripL_map_toLower s.data)

/-! JSON payloads and the embedding of `KeywordHarvester._fetch_suggestions`
(lines 68–150 of `keyword_harvester.py`). -/

/-- JSON values as produced by `json.loads`.  Numbers are restricted to
integers (relevance scores are integers in this API). -/
inductive JVal where
  | null
  | bool (b : Bool)
  | num (n : Int)
  | str (s : String)
  | arr (items : List JVal)
  | obj (fields : List (String × JVal))

/-- Outcome of the HTTP GET performed by `_fetch_suggestions`: a response
carrying a status code and the result of `json.loads` on its text
(`none` models a `JSONDecodeError`), a timeout, or any other request
error (`aiohttp` failures and the like). -/
inductive HttpResult where
  | response (status : Nat) (body : Option JVal)
  | timeout
  | failure

/-- Configuration fields of `KeywordHarvester` that the embedded logic
reads.  Language, country, domain and timeout only shape the HTTP request,
which the oracle absorbs; `rate_limit_delay` only scales the sleep, which
we count rather than time. -/
structure Config where
  max_depth : Int := 2
  min_relevance : Int := 0
  max_suggestions_per_seed : Int := 100
  deriving DecidableEq

/-- One suggestion dict as built inside `_fetch_suggestions`:
`{'keyword': suggestion, 'relevance': relevance, 'type': 'QUERY',
'source_query': query, 'depth': 0}`.  The keyword is the raw JSON value
`suggestion`; the relevance has passed the `>= min_relevance` comparison,
hence is numeric (Python booleans compare as 0/1). -/
structure SuggJ where
  keyword : JVal
  relevance : Int
  type : String
  source_query : String
  depth : Int

/-- Result of one `_fetch_suggestions` call: the returned list plus the
number of times the rate-limit `asyncio.sleep` ran during the call. -/
structure FetchOut where
  results : List SuggJ
  sleeps : Nat

/-- Python `dict.get key` on an object's fields. -/
def jGet (fields : List (String × JVal)) (key : String) : Option JVal :=
  match fields.find? (fun kv => kv.1 == key) with
  | some kv => some kv.2
  | none => none

/-- Values Python's `enumerate` can iterate, with the items it yields:
lists yield their elements, strings their characters, dicts their keys.
`none` models the `TypeError` that other values raise (caught by the broad
`except` in `_fetch_suggestions`). -/
def pyEnumItems : JVal → Option (List JVal)
  | .arr l => some l
  | .str s => some (s.data.map (fun c => JVal.str (Char.toString c)))
  | .obj kvs => some (kvs.map (fun kv => JVal.str kv.1))
  | _ => none

/-- Python `len(x)`; `none` models the `TypeError` on unsized values. -/
def pyLen : JVal → Option Nat
  | .arr l => some l.length
  | .str s => some s.data.length
  | .obj kvs => some kvs.length
  | _ => none

/-- Numeric view of a JSON value for the `relevance >= min_relevance`
comparison; Python booleans are integers.  `none` models the `TypeError`
raised when comparing non-numbers with an int. -/
def jNumeric : JVal → Option Int
  | .num n => some n
  | .bool b => some (if b then 1 else 0)
  | _ => none

/-- The expression `relevance_scores[idx] if idx < len(relevance_scores)
else 0` followed by the numeric comparison, for an arbitrary JSON value in
`relevance_scores`.  `none` models an exception: `len` on an unsized value,
indexing a dict with an int (`KeyError`, since JSON object keys are
strings), or comparing a non-numeric score with `min_relevance`. -/
def scoreAt (scores : JVal) (idx : Nat) : Option Int :=
  match pyLen scores with
  | none => none
  | some len =>
    if idx < len then
      match scores with
      | .arr l => jNumeric (l.getD idx .null)
      | _ => none
    else
      some 0

/-- The result-building loop of `_fetch_suggestions` (lines 123–138):
walk the suggestions with their indices, attach the score at the same
index (0 when absent), keep those with `relevance >= min_relevance`.
`none` models an exception inside the loop, which discards everything and
takes the `except` path. -/
def buildResults (minRel : Int) (query : String) :
    List JVal → JVal → Nat → Option (List SuggJ)
  | [], _, _ => some []
  | suggestion :: rest, scores, idx =>
    match scoreAt scores idx with
    | none => none
    | some relevance =>
      match buildResults minRel query rest scores (idx + 1) with
      | none => none
      | some tail =>
        if relevance ≥ minRel then
          some ({ keyword := suggestion, relevance := relevance, type := "QUERY",
                  source_query := query, depth := 0 } :: tail)
        else
          some tail

/-- Lines 116–120: `metadata = data[4] if len(data) > 4 else {}`, then
`relevance_scores = metadata.get('google:suggestrelevance', [])` when
`metadata` is a dict, else the initial `[]`. -/
def relevanceScoresOf (items : List JVal) : JVal :=
  let metadata := if items.length > 4 then items.getD 4 .null else .obj []
  match metadata with
  | .obj kvs => (jGet kvs "google:suggestrelevance").getD (.arr [])
  | _ => .arr []

/-- Embedding of `KeywordHarvester._fetch_suggestions` over an HTTP oracle.
Mirrors the source's control flow: non-200 status, JSON decode failure,
non-list payload, payloads shorter than 2, and any exception during
processing all return `[]`; the rate-limit sleep (line 141) runs only on
the path that reaches the final `return results`. -/
def fetchSuggestionsT (cfg : Config) (http : String → HttpResult)
    (query : String) : FetchOut :=
  match http query with
  | .timeout => ⟨[], 0⟩
  | .failure => ⟨[], 0⟩
  | .response status body =>
    if status ≠ 200 then ⟨[], 0⟩
    else
      match body with
      | none => ⟨[], 0⟩
      | some data =>
        match data with
        | .arr items =>
          if items.length < 2 then ⟨[], 0⟩
          else
            let suggestions := items.getD 1 .null
            match pyEnumItems suggestions with
            | none => ⟨[], 0⟩
            | some suggItems =>
              match buildResults cfg.min_relevance query suggItems (relevanceScoresOf items) 0 with
              | none => ⟨[], 0⟩
              | some results => ⟨results, 1⟩
        | _ => ⟨[], 0⟩

/-- The suggestion list produced by `_fetch_suggestions`, without the
sleep count. -/
def fetchSuggestions (cfg : Config) (http : String → HttpResult)
    (query : String) : List SuggJ :=
  (fetchSuggestionsT cfg http query).results

/-! The expansion engine, `KeywordHarvester.harvest_keywords`
(lines 191–313 of `keyword_harvester.py`).  The loop is parameterised by an
arbitrary suggestion-fetch function `fetch : String → List Sugg`; it only
normalises, deduplicates and stores what `fetch` returns, so every theorem
below holds in particular for the composition with `fetchSuggestions`
(runs on which the Python code would raise a `TypeError` on a non-string
suggestion value return nothing and are outside the claims). -/

/-- One accepted suggestion dict as held in `keyword_data`.  The
`scraped_at` wall-clock timestamp is not modelled. -/
structure Sugg where
  keyword : String
  relevance : Int
  type : String := "QUERY"
  source_query : String := ""
  depth : Int := 0
  parent_keyword : String := ""
  deriving DecidableEq

/-- `ALPHABET = list('abcdefghijklmnopqrstuvwxyz')`. -/
def ALPHABET : List String :=
  "abcdefghijklmnopqrstuvwxyz".data.map Char.toString

/-- The `QUESTION_WORDS` class constant. -/
def QUESTION_WORDS : List String :=
  ["how", "what", "why", "when", "where", "who", "which", "are", "is", "can", "will"]

/-- The `PREPOSITIONS` class constant. -/
def PREPOSITIONS : List String :=
  ["for", "with", "without", "near", "in", "at", "to", "from", "vs", "versus"]

/-- Embedding of `_expand_with_modifiers`: build one query per modifier
(suffix or prefix position) and concatenate the fetched batches in modifier
order.  The source issues the fetches concurrently in fixed slices of 10
and extends an accumulator slice by slice; since each `_fetch_suggestions`
result lands at its task's position, the resulting list is exactly this
concatenation. -/
def expandWithModifiers (fetch : String → List Sugg) (seed_keyword : String)
    (modifiers : List String) (position : String) : List Sugg :=
  (modifiers.map (fun m =>
    if position == "suffix" then seed_keyword ++ " " ++ m
    else m ++ " " ++ seed_keyword)).flatMap fetch

/-- The boolean options of `harvest_keywords`. -/
structure HarvestOptions where
  use_alphabet : Bool := true
  use_questions : Bool := true
  use_prepositions : Bool := true
  recursive : Bool := true
  deriving DecidableEq

/-- Run state of one harvest: the BFS `queue` of `(keyword, depth)` pairs,
`self.all_keywords` (a Python set, represented as its insertion-ordered
list of distinct elements, so `length` is the set's size), and
`self.keyword_data`. -/
structure HarvestState where
  queue : List (String × Int)
  all_keywords : List String
  keyword_data : List Sugg
  deriving DecidableEq

/-- Python `set.add`: no-op when the element is present. -/
def setAdd (s : List String) (k : String) : List String :=
  if k ∈ s then s else s ++ [k]

/-- Initialisation (lines 214–219): every seed is appended to the queue at
depth 0 — duplicates included — and its normalised form is added to the
`all_keywords` set. -/
def initState (seed_keywords : List String) : HarvestState :=
  { queue := seed_keywords.map (fun seed => (normSeed seed, 0)),
    all_keywords := seed_keywords.foldl (fun acc seed => setAdd acc (normSeed seed)) [],
    keyword_data := [] }

/-- The acceptance step of the inner loop (lines 284–294): overwrite
`depth` and `parent_keyword` on the suggestion dict, append it to
`keyword_data`, add the normalised keyword to the seen set, and enqueue
the normalised keyword at `depth + 1` when recursion is enabled and
`depth < max_depth`. -/
def acceptState (cfg : Config) (opts : HarvestOptions) (current_keyword : String)
    (depth : Int) (st : HarvestState) (suggestion : Sugg) : HarvestState :=
  let keyword := normKw suggestion.keyword
  { queue :=
      if opts.recursive ∧ depth < cfg.max_depth then st.queue ++ [(keyword, depth + 1)]
      else st.queue,
    all_keywords := setAdd st.all_keywords keyword,
    keyword_data :=
      st.keyword_data ++ [{ suggestion with depth := depth, parent_keyword := current_keyword }] }

/-- The inner suggestion-processing loop (lines 277–300).  For each
suggestion in order: normalise; skip if seen or equal to the current
frontier keyword; otherwise accept via `acceptState`; then the
circuit-breaker check — when the seen set has reached
`max_suggestions_per_seed * len(seed_keywords)` the queue is cleared and
the loop `break`s at once, dropping the remaining suggestions of the
batch. -/
def processSuggestions (cfg : Config) (opts : HarvestOptions) (numSeeds : Nat)
    (current_keyword : String) (depth : Int) :
    List Sugg → HarvestState → HarvestState
  | [], st => st
  | suggestion :: rest, st =>
    let keyword := normKw suggestion.keyword
    if keyword ∈ st.all_keywords ∨ keyword = current_keyword then
      processSuggestions cfg opts numSeeds current_keyword depth rest st
    else
      let st' := acceptState cfg opts current_keyword depth st suggestion
      if (st'.all_keywords.length : Int) ≥ cfg.max_suggestions_per_seed * (numSeeds : Int) then
        { st' with queue := [] }
      else
        processSuggestions cfg opts numSeeds current_keyword depth rest st'

/-- The combined suggestion list for one frontier keyword (lines 235–274):
base suggestions, alphabet expansion (depth 0 only), question-word
expansion (prefix position), preposition expansion (suffix position),
concatenated in that order. -/
def gatherSuggestions (opts : HarvestOptions) (fetch : String → List Sugg)
    (current_keyword : String) (depth : Int) : List Sugg :=
  let base_suggestions := fetch current_keyword
  let alphabet_suggestions :=
    if opts.use_alphabet ∧ depth = 0 then
      expandWithModifiers fetch current_keyword ALPHABET "suffix"
    else []
  let question_suggestions :=
    if opts.use_questions then
      expandWithModifiers fetch current_keyword QUESTION_WORDS "prefix"
    else []
  let preposition_suggestions :=
    if opts.use_prepositions then
      expandWithModifiers fetch current_keyword PREPOSITIONS "suffix"
    else []
  base_suggestions ++ alphabet_suggestions ++ question_suggestions ++ preposition_suggestions

/-- The outer `while queue:` loop (lines 226–306), fuel-indexed.  Dequeue
the front entry; discard it when its depth exceeds `max_depth`; otherwise
gather its combined suggestion batch and process it. -/
def harvestLoop (cfg : Config) (opts : HarvestOptions) (fetch : String → List Sugg)
    (numSeeds : Nat) : Nat → HarvestState → HarvestState
  | 0, st => st
  | fuel + 1, st =>
    match st.queue with
    | [] => st
    | (current_keyword, depth) :: qrest =>
      let st₁ : HarvestState := { st with queue := qrest }
      if depth > cfg.max_depth then
        harvestLoop cfg opts fetch numSeeds fuel st₁
      else
        harvestLoop cfg opts fetch numSeeds fuel
          (processSuggestions cfg opts numSeeds current_keyword depth
            (gatherSuggestions opts fetch current_keyword depth) st₁)

/-- A whole run up to the sort: initial state from the seeds, then the
expansion loop.  `numSeeds` is `len(seed_keywords)` with duplicates. -/
def harvestRun (cfg : Config) (opts : HarvestOptions) (fetch : String → List Sugg)
    (fuel : Nat) (seed_keywords : List String) : HarvestState :=
  harvestLoop cfg opts fetch seed_keywords.length fuel (initState seed_keywords)

/-- The comparator of `self.keyword_data.sort(key=lambda x: its relevance,
reverse=True)`: `a` may stay before `b` when its relevance is at least
`b`'s.  A stable sort with this comparator is exactly Python's stable
descending sort. -/
def relLE (a b : Sugg) : Bool :=
  b.relevance ≤ a.relevance

/-- Embedding of `harvest_keywords`: run the loop, then return
`keyword_data` sorted by relevance descending (stable). -/
def harvest_keywords (cfg : Config) (opts : HarvestOptions)
    (fetch : String → List Sugg) (fuel : Nat) (seed_keywords : List String) :
    List Sugg :=
  ((harvestRun cfg opts fetch fuel seed_keywords).keyword_data).mergeSort relLE

/-! Specification-side predicates and reference functions, used to state
the claims (never used inside the embedding above). -/

/-- The HTTP outcomes the spec calls transient fetch errors: timeout,
network failure, non-200 status, unparseable text, or a parsed payload
that is not a list of length at least 2. -/
def transientFailure (r : HttpResult) : Prop :=
  r = .timeout ∨ r = .failure ∨
  (∃ status body, r = .response status body ∧ status ≠ 200) ∨
  r = .response 200 none ∨
  (∃ v, r = .response 200 (some v) ∧ ∀ items, v = JVal.arr items → items.length < 2)

/-- The full-success path of `_fetch_suggestions`: 200 status, parsed
list of length at least 2, an enumerable second element, and a
result-building loop that raises no exception.  This is exactly the path
on which the code reaches the rate-limit sleep. -/
def successPath (cfg : Config) (http : String → HttpResult) (query : String) : Prop :=
  ∃ items suggItems results,
    http query = .response 200 (some (.arr items)) ∧
    ¬ items.length < 2 ∧
    pyEnumItems (items.getD 1 .null) = some suggItems ∧
    buildResults cfg.min_relevance query suggItems (relevanceScoresOf items) 0 = some results

/-- Modelled from the spec: the relevance-extraction rule — the i-th
suggested string receives the i-th relevance score when one exists, else
0, and suggestions below `min_relevance` are dropped. -/
def specBuild (minRel : Int) (query : String) :
    List String → List Int → Nat → List SuggJ
  | [], _, _ => []
  | s :: rest, scores, idx =>
    let relevance := scores.getD idx 0
    if relevance ≥ minRel then
      { keyword := .str s, relevance := relevance, type := "QUERY",
        source_query := query, depth := 0 } :: specBuild minRel query rest scores (idx + 1)
    else
      specBuild minRel query rest scores (idx + 1)

/-- Specification predicate for the dedup claim: result keywords are
tracked in the seen set, pairwise distinct after normalisation, the seeds'
normalised forms are in the seen set, and no result normalises to a seed's
normalised form. -/
def dedupInv (seed_keywords : List String) (st : HarvestState) : Prop :=
  (∀ s ∈ st.keyword_data, normKw s.keyword ∈ st.all_keywords) ∧
  st.keyword_data.Pairwise (fun a b => normKw a.keyword ≠ normKw b.keyword) ∧
  (∀ y ∈ seed_keywords, normSeed y ∈ st.all_keywords) ∧
  (∀ s ∈ st.keyword_data, ∀ y ∈ seed_keywords, normKw s.keyword ≠ normSeed y)

/-- Specification predicate for the depth claim: every frontier entry and
every accepted result sits at a depth between 0 and `maxDepth`. -/
def depthInv (maxDepth : Int) (st : HarvestState) : Prop :=
  (∀ p ∈ st.queue, 0 ≤ p.2 ∧ p.2 ≤ maxDepth) ∧
  (∀ s ∈ st.keyword_data, 0 ≤ s.depth ∧ s.depth ≤ maxDepth)

/-- Specification predicate for the breaker claim: either the seen set is
still below the cap, or the breaker has tripped — the seen set exceeds the
cap by at most one and the queue is empty. -/
def capInv (cap : Int) (st : HarvestState) : Prop :=
  (st.all_keywords.length : Int) ≤ cap ∨
  ((st.all_keywords.length : Int) ≤ cap + 1 ∧ st.queue = [])

/-- Specification predicate: every accepted result's keyword string was
returned verbatim by the fetch function on some query. -/
def sourceInv (fetch : String → List Sugg) (st : HarvestState) : Prop :=
  ∀ s ∈ st.keyword_data, ∃ q s₀, s₀ ∈ fetch q ∧ s₀.keyword = s.keyword

/-! Concrete fixtures for witnesses and counterexamples. -/

/-- The default configuration of `KeywordHarvester.__init__`. -/
def cfgDefault : Config :=
  {}

/-- A configuration with a per-seed cap of 1 (all other fields default). -/
def cfgCap1 : Config :=
  { max_depth := 2, min_relevance := 0, max_suggestions_per_seed := 1 }

/-- A configuration with a per-seed cap of 2. -/
def cfgCap2 : Config :=
  { max_depth := 2, min_relevance := 0, max_suggestions_per_seed := 2 }

/-- All modifier expansions and recursion disabled, to keep concrete runs
small. -/
def optsPlain : HarvestOptions :=
  { use_alphabet := false, use_questions := false, use_prepositions := false,
    recursive := false }

/-- A suggestion source returning one suggestion `b` for the query `a`. -/
def fetchOneB : String → List Sugg := fun q =>
  if q = "a" then [{ keyword := "b", relevance := 5 }] else []

/-- A suggestion source returning two new suggestions `b`, `c` for the
query `a`. -/
def fetchBC : String → List Sugg := fun q =>
  if q = "a" then
    [{ keyword := "b", relevance := 5 }, { keyword := "c", relevance := 4 }]
  else []

/-- A suggestion source whose suggestion string `"B c "` is not in
normalised form. -/
def fetchRawCase : String → List Sugg := fun q =>
  if q = "a" then [{ keyword := "B c ", relevance := 5 }] else []

/-- An HTTP oracle that always answers with status 404 and a well-formed
body. -/
def http404 : String → HttpResult := fun _ =>
  .response 404 (some (.arr [.str "a", .arr []]))

/-- An HTTP oracle returning the 4-element structure of the claim:
`[echoed_query, [suggested_strings], [metadata], {relevance_scores}]`,
with the score dict as the fourth element (index 3). -/
def http4elem : String → HttpResult := fun _ =>
  .response 200 (some (.arr
    [.str "q", .arr [.str "s1"], .arr [],
     .obj [("google:suggestrelevance", .arr [.num 500])]]))

/-- An HTTP oracle returning the real 5-element chrome-client structure,
with the score dict as the fifth element (index 4) and one score for two
suggestions. -/
def http5elem : String → HttpResult := fun _ =>
  .response 200 (some (.arr
    [.str "q", .arr [.str "s1", .str "s2"], .arr [], .arr [],
     .obj [("google:suggestrelevance", .arr [.num 500])]]))

/-- An HTTP oracle that always times out. -/
def httpTimeout : String → HttpResult := fun _ => .timeout

/-! Step equations for the loops. -/

theorem processSuggestions_nil (cfg : Config) (opts : HarvestOptions) (numSeeds : Nat)
    (current : String) (depth : Int) (st : HarvestState) :
    processSuggestions cfg opts numSeeds current depth [] st = st :=
  rfl

theorem processSuggestions_cons_skip (cfg : Config) (opts : HarvestOptions) (numSeeds : Nat)
    (current : String) (depth : Int) (s : Sugg) (rest : List Sugg) (st : HarvestState)
    (h : normKw s.keyword ∈ st.all_keywords ∨ normKw s.keyword = current) :
    processSuggestions cfg opts numSeeds current depth (s :: rest) st =
      processSuggestions cfg opts numSeeds current depth rest st := by
  simp only [processSuggestions]
  rw [if_pos h]

theorem processSuggestions_cons_clear (cfg : Config) (opts : HarvestOptions) (numSeeds : Nat)
    (current : String) (depth : Int) (s : Sugg) (rest : List Sugg) (st : HarvestState)
    (h : ¬(normKw s.keyword ∈ st.all_keywords ∨ normKw s.keyword = current))
    (htrip : ((acceptState cfg opts current depth st s).all_keywords.length : Int) ≥
      cfg.max_suggestions_per_seed * (numSeeds : Int)) :
    processSuggestions cfg opts numSeeds current depth (s :: rest) st =
      { acceptState cfg opts current depth st s with queue := [] } := by
  simp only [processSuggestions]
  rw [if_neg h, if_pos htrip]

theorem processSuggestions_cons_go (cfg : Config) (opts : HarvestOptions) (numSeeds : Nat)
    (current : String) (depth : Int) (s : Sugg) (rest : List Sugg) (st : HarvestState)
    (h : ¬(normKw s.keyword ∈ st.all_keywords ∨ normKw s.keyword = current))
    (htrip : ¬ ((acceptState cfg opts current depth st s).all_keywords.length : Int) ≥
      cfg.max_suggestions_per_seed * (numSeeds : Int)) :
    processSuggestions cfg opts numSeeds current depth (s :: rest) st =
      processSuggestions cfg opts numSeeds current depth rest
        (acceptState cfg opts current depth st s) := by
  simp only [processSuggestions]
  rw [if_neg h, if_neg htrip]

theorem harvestLoop_zero (cfg : Config) (opts : HarvestOptions) (fetch : String → List Sugg)
    (numSeeds : Nat) (st : HarvestState) :
    harvestLoop cfg opts fetch numSeeds 0 st = st :=
  rfl

theorem harvestLoop_succ_nil (cfg : Config) (opts : HarvestOptions) (fetch : String → List Sugg)
    (numSeeds : Nat) (fuel : Nat) (st : HarvestState) (h : st.queue = []) :
    harvestLoop cfg opts fetch numSeeds (fuel + 1) st = st := by
  simp only [harvestLoop, h]

theorem harvestLoop_succ_drop (cfg : Config) (opts : HarvestOptions) (fetch : String → List Sugg)
    (numSeeds : Nat) (fuel : Nat) (st : HarvestState) (current : String) (depth : Int)
    (rest : List (String × Int)) (h : st.queue = (current, depth) :: rest)
    (hd : depth > cfg.max_depth) :
    harvestLoop cfg opts fetch numSeeds (fuel + 1) st =
      harvestLoop cfg opts fetch numSeeds fuel { st with queue := rest } := by
  simp only [harvestLoop, h]
  rw [if_pos hd]

theorem harvestLoop_succ_go (cfg : Config) (opts : HarvestOptions) (fetch : String → List Sugg)
    (numSeeds : Nat) (fuel : Nat) (st : HarvestState) (current : String) (depth : Int)
    (rest : List (String × Int)) (h : st.queue = (current, depth) :: rest)
    (hd : ¬ depth > cfg.max_depth) :
    harvestLoop cfg opts fetch numSeeds (fuel + 1) st =
      harvestLoop cfg opts fetch numSeeds fuel
        (processSuggestions cfg opts numSeeds current depth
          (gatherSuggestions opts fetch current depth) { st with queue := rest }) := by
  simp only [harvestLoop, h]
  rw [if_neg hd]

/-! Facts about the set representation and the initial state. -/

theorem setAdd_of_not_mem (s : List String) (k : String) (h : k ∉ s) :
    setAdd s k = s ++ [k] :=
  if_neg h

theorem mem_setAdd_of_mem (s : List String) (k x : String) (h : x ∈ s) :
    x ∈ setAdd s k := by
  unfold setAdd
  split
  · exact h
  · exact List.mem_append_left _ h

theorem mem_setAdd_self (s : List String) (k : String) : k ∈ setAdd s k := by
  unfold setAdd
  split
  · assumption
  · exact List.mem_append_right _ (List.mem_singleton.mpr rfl)

theorem length_setAdd_le (s : List String) (k : String) :
    (setAdd s k).length ≤ s.length + 1 := by
  unfold setAdd
  split
  · omega
  · simp

theorem length_setAdd_of_not_mem (s : List String) (k : String) (h : k ∉ s) :
    (setAdd s k).length = s.length + 1 := by
  rw [setAdd_of_not_mem s k h]
  simp

theorem mem_foldl_setAdd_of_mem (l : List String) (acc : List String) (x : String)
    (h : x ∈ acc) :
    x ∈ l.foldl (fun a s => setAdd a (normSeed s)) acc := by
  induction l generalizing acc with
  | nil => exact h
  | cons y ys ih => exact ih _ (mem_setAdd_of_mem _ _ _ h)

theorem normSeed_mem_foldl_setAdd :
    ∀ (l : List String) (acc : List String) (y : String), y ∈ l →
      normSeed y ∈ l.foldl (fun a s => setAdd a (normSeed s)) acc
  | z :: zs, acc, y, h => by
    simp only [List.foldl_cons]
    rcases List.mem_cons.mp h with rfl | hy
    · exact mem_foldl_setAdd_of_mem _ _ _ (mem_setAdd_self _ _)
    · exact normSeed_mem_foldl_setAdd zs _ y hy

theorem length_foldl_setAdd_le (l : List String) (acc : List String) :
    (l.foldl (fun a s => setAdd a (normSeed s)) acc).length ≤ acc.length + l.length := by
  induction l generalizing acc with
  | nil => simp
  | cons y ys ih =>
    simp only [List.foldl_cons, List.length_cons]
    calc (ys.foldl (fun a s => setAdd a (normSeed s)) (setAdd acc (normSeed y))).length
        ≤ (setAdd acc (normSeed y)).length + ys.length := ih _
      _ ≤ acc.length + 1 + ys.length := by
          have := length_setAdd_le acc (normSeed y)
          omega
      _ = acc.length + (ys.length + 1) := by omega

theorem initState_queue (seed_keywords : List String) :
    (initState seed_keywords).queue = seed_keywords.map (fun seed => (normSeed seed, 0)) :=
  rfl

theorem initState_keyword_data (seed_keywords : List String) :
    (initState seed_keywords).keyword_data = [] :=
  rfl

theorem normSeed_mem_initState (seed_keywords : List String) (y : String)
    (h : y ∈ seed_keywords) :
    normSeed y ∈ (initState seed_keywords).all_keywords :=
  normSeed_mem_foldl_setAdd _ _ _ h

theorem initState_all_keywords_length_le (seed_keywords : List String) :
    (initState seed_keywords).all_keywords.length ≤ seed_keywords.length := by
  have := length_foldl_setAdd_le seed_keywords []
  simpa [initState] using this

/-! Generic preservation combinators for the two loops. -/

theorem processSuggestions_inv (cfg : Config) (opts : HarvestOptions) (numSeeds : Nat)
    (current : String) (depth : Int) (P : HarvestState → Prop)
    (hclear : ∀ st, P st → P { st with queue := [] }) :
    ∀ (suggs : List Sugg) (st : HarvestState),
      (∀ s ∈ suggs, ∀ st', P st' →
        ¬(normKw s.keyword ∈ st'.all_keywords ∨ normKw s.keyword = current) →
        P (acceptState cfg opts current depth st' s)) →
      P st → P (processSuggestions cfg opts numSeeds current depth suggs st) := by
  intro suggs
  induction suggs with
  | nil =>
    intro st _ h
    rw [processSuggestions_nil]
    exact h
  | cons s rest ih =>
    intro st haccept h
    by_cases hc : normKw s.keyword ∈ st.all_keywords ∨ normKw s.keyword = current
    · rw [processSuggestions_cons_skip _ _ _ _ _ _ _ _ hc]
      exact ih st (fun x hx => haccept x (List.mem_cons_of_mem _ hx)) h
    · have hP' : P (acceptState cfg opts current depth st s) :=
        haccept s (List.mem_cons_self _ _) st h hc
      by_cases htrip : ((acceptState cfg opts current depth st s).all_keywords.length : Int) ≥
          cfg.max_suggestions_per_seed * (numSeeds : Int)
      · rw [processSuggestions_cons_clear _ _ _ _ _ _ _ _ hc htrip]
        exact hclear _ hP'
      · rw [processSuggestions_cons_go _ _ _ _ _ _ _ _ hc htrip]
        exact ih _ (fun x hx => haccept x (List.mem_cons_of_mem _ hx)) hP'

theorem harvestLoop_inv (cfg : Config) (opts : HarvestOptions) (fetch : String → List Sugg)
    (numSeeds : Nat) (P : HarvestState → Prop)
    (hdrop : ∀ st current depth rest, st.queue = (current, depth) :: rest → P st →
      P { st with queue := rest })
    (hstep : ∀ st current depth rest, st.queue = (current, depth) :: rest →
      ¬ depth > cfg.max_depth → P st →
      P (processSuggestions cfg opts numSeeds current depth
          (gatherSuggestions opts fetch current depth) { st with queue := rest })) :
    ∀ (fuel : Nat) (st : HarvestState), P st →
      P (harvestLoop cfg opts fetch numSeeds fuel st) := by
  intro fuel
  induction fuel with
  | zero =>
    intro st h
    rw [harvestLoop_zero]
    exact h
  | succ n ih =>
    intro st h
    match hq : st.queue with
    | [] =>
      rw [harvestLoop_succ_nil _ _ _ _ _ _ hq]
      exact h
    | (current, depth) :: rest =>
      by_cases hd : depth > cfg.max_depth
      · rw [harvestLoop_succ_drop _ _ _ _ _ _ _ _ _ hq hd]
        exact ih _ (hdrop st current depth rest hq h)
      · rw [harvestLoop_succ_go _ _ _ _ _ _ _ _ _ hq hd]
        exact ih _ (hstep st current depth rest hq hd h)

/-- Every suggestion in a combined batch carries a keyword string produced
verbatim by the fetch function on some query. -/
theorem mem_gather_from_fetch (opts : HarvestOptions) (fetch : String → List Sugg)
    (current : String) (depth : Int) (s : Sugg)
    (h : s ∈ gatherSuggestions opts fetch current depth) :
    ∃ q, s ∈ fetch q := by
  simp only [gatherSuggestions, List.mem_append] at h
  have hexp : ∀ (seed : String) (mods : List String) (pos : String),
      s ∈ expandWithModifiers fetch seed mods pos → ∃ q, s ∈ fetch q := by
    intro seed mods pos hmem
    simp only [expandWithModifiers, List.mem_flatMap, List.mem_map] at hmem
    obtain ⟨q, ⟨m, _, rfl⟩, hq⟩ := hmem
    exact ⟨_, hq⟩
  rcases h with ((hb | ha) | hq) | hp
  · exact ⟨current, hb⟩
  · split at ha
    · exact hexp _ _ _ ha
    · cases ha
  · split at hq
    · exact hexp _ _ _ hq
    · cases hq
  · split at hp
    · exact hexp _ _ _ hp
    · cases hp

/-! Claim C1. -/

/-- C1: for every run of `harvest_keywords`, no two entries of the
returned results list have the same normalised (lower-cased, trimmed)
keyword, and no entry's normalised keyword equals the normalised form of
any seed keyword. -/
theorem C1_dedup_invariant (cfg : Config) (opts : HarvestOptions)
    (fetch : String → List Sugg) (fuel : Nat) (seed_keywords : List String) :
    (harvest_keywords cfg opts fetch fuel seed_keywords).Pairwise
      (fun a b => normKw a.keyword ≠ normKw b.keyword) ∧
    ∀ r ∈ harvest_keywords cfg opts fetch fuel seed_keywords,
      ∀ seed ∈ seed_keywords, normKw r.keyword ≠ normKw seed := by
  have hfinal : dedupInv seed_keywords (harvestRun cfg opts fetch fuel seed_keywords) := by
    unfold harvestRun
    apply harvestLoop_inv (P := dedupInv seed_keywords)
    · intro st current depth rest _ hP
      exact hP
    · intro st current depth rest _ _ hP
      apply processSuggestions_inv (P := dedupInv seed_keywords)
      · intro st' h
        exact h
      · intro s _ st' hP' hc
        obtain ⟨h1, h2, h3, h4⟩ := hP'
        have hk : normKw s.keyword ∉ st'.all_keywords := fun hmem => hc (Or.inl hmem)
        simp only [acceptState, dedupInv]
        refine ⟨?_, ?_, ?_, ?_⟩
        · intro t ht
          rcases List.mem_append.mp ht with htl | htr
          · exact mem_setAdd_of_mem _ _ _ (h1 t htl)
          · rw [List.mem_singleton.mp htr]
            exact mem_setAdd_self _ _
        · rw [List.pairwise_append]
          refine ⟨h2, List.pairwise_singleton _ _, ?_⟩
          intro a ha b hb
          rw [List.mem_singleton.mp hb]
          intro heq
          exact hk (heq ▸ h1 a ha)
        · intro y hy
          exact mem_setAdd_of_mem _ _ _ (h3 y hy)
        · intro t ht y hy
          rcases List.mem_append.mp ht with htl | htr
          · exact h4 t htl y hy
          · rw [List.mem_singleton.mp htr]
            intro heq
            exact hk (heq ▸ h3 y hy)
      · exact hP
    · refine ⟨?_, ?_, ?_, ?_⟩
      · intro s hs
        simp [initState_keyword_data] at hs
      · rw [initState_keyword_data]
        exact List.Pairwise.nil
      · intro y hy
        exact normSeed_mem_initState _ _ hy
      · intro s hs
        simp [initState_keyword_data] at hs
  obtain ⟨h1, h2, h3, h4⟩ := hfinal
  constructor
  · exact ((List.mergeSort_perm _ relLE).pairwise_iff (fun h => h.symm)).mpr h2
  · intro r hr seed hseed
    rw [normKw_eq_normSeed seed]
    exact h4 r (List.mem_mergeSort.mp hr) seed hseed

/-- Witness for C1 at a concrete run: seeds `["a"]`, a source returning
`b`; the single result's normalised keyword differs from the seed's. -/
theorem C1_dedup_invariant_witness : normKw "b" ≠ normKw "a" := by
  have hkd : (harvestRun cfgCap2 optsPlain fetchOneB 10 ["a"]).keyword_data =
      [{ keyword := "b", relevance := 5, depth := 0, parent_keyword := "a" }] := by
    decide
  have hres : harvest_keywords cfgCap2 optsPlain fetchOneB 10 ["a"] =
      [{ keyword := "b", relevance := 5, depth := 0, parent_keyword := "a" }] := by
    simp [harvest_keywords, hkd]
  have h := (C1_dedup_invariant cfgCap2 optsPlain fetchOneB 10 ["a"]).2
    { keyword := "b", relevance := 5, depth := 0, parent_keyword := "a" }
    (by rw [hres]; exact List.mem_singleton.mpr rfl) "a" (List.mem_singleton.mpr rfl)
  simpa using h

/-! Claim C2. -/

theorem relLE_trans (a b c : Sugg) : relLE a b → relLE b c → relLE a c := by
  simp only [relLE, decide_eq_true_eq]
  exact fun h1 h2 => le_trans h2 h1

theorem relLE_total (a b : Sugg) : relLE a b || relLE b a := by
  simp only [relLE, Bool.or_eq_true, decide_eq_true_eq]
  exact Int.le_total b.relevance a.relevance

/-- C2: the list returned by `harvest_keywords` is sorted by relevance in
descending order, and for every relevance value the entries carrying it
appear exactly in discovery order (the order of `keyword_data` before the
final sort): the sort is stable. -/
theorem C2_ranking_stable (cfg : Config) (opts : HarvestOptions)
    (fetch : String → List Sugg) (fuel : Nat) (seed_keywords : List String) :
    (harvest_keywords cfg opts fetch fuel seed_keywords).Pairwise
      (fun a b => b.relevance ≤ a.relevance) ∧
    ∀ r : Int,
      (harvest_keywords cfg opts fetch fuel seed_keywords).filter
          (fun s => s.relevance == r) =
        ((harvestRun cfg opts fetch fuel seed_keywords).keyword_data).filter
          (fun s => s.relevance == r) := by
  constructor
  · have hs := List.sorted_mergeSort relLE_trans relLE_total
      (harvestRun cfg opts fetch fuel seed_keywords).keyword_data
    exact hs.imp (fun h => by simpa [relLE] using h)
  · intro r
    set l := (harvestRun cfg opts fetch fuel seed_keywords).keyword_data with hl
    have hpairfil : (l.filter (fun s => s.relevance == r)).Pairwise (fun a b => relLE a b) := by
      apply List.pairwise_of_forall_mem_list
      intro a ha b hb
      have hae : a.relevance = r := by simpa using (List.mem_filter.mp ha).2
      have hbe : b.relevance = r := by simpa using (List.mem_filter.mp hb).2
      simp [relLE, hae, hbe]
    have hsub : l.filter (fun s => s.relevance == r) <+ l.mergeSort relLE :=
      List.sublist_mergeSort relLE_trans relLE_total hpairfil (List.filter_sublist l)
    have hsub2 : l.filter (fun s => s.relevance == r) <+
        (l.mergeSort relLE).filter (fun s => s.relevance == r) := by
      have h := hsub.filter (fun s => s.relevance == r)
      rwa [List.filter_filter, show (fun a : Sugg => (a.relevance == r) && (a.relevance == r)) =
        (fun a : Sugg => a.relevance == r) from by funext a; rw [Bool.and_self]] at h
    have hperm : (l.mergeSort relLE).filter (fun s => s.relevance == r) ~
        l.filter (fun s => s.relevance == r) :=
      (List.mergeSort_perm l relLE).filter _
    exact (hsub2.eq_of_length hperm.length_eq.symm).symm

/-! Claim C3. -/

/-- C3: when `max_depth` is non-negative, every returned entry's depth
lies between 0 and `max_depth`, every frontier entry ever enqueued (the
queue of any intermediate outer-loop state, i.e. of the run at any fuel)
has depth between 0 and `max_depth`, and a dequeued entry whose depth
exceeds `max_depth` is discarded without being expanded: that loop step
changes nothing but the queue. -/
theorem C3_depth_bound (cfg : Config) (opts : HarvestOptions) (fetch : String → List Sugg)
    (fuel : Nat) (seed_keywords : List String) (hmd : 0 ≤ cfg.max_depth) :
    (∀ r ∈ harvest_keywords cfg opts fetch fuel seed_keywords,
        0 ≤ r.depth ∧ r.depth ≤ cfg.max_depth) ∧
    (∀ p ∈ (harvestRun cfg opts fetch fuel seed_keywords).queue,
        0 ≤ p.2 ∧ p.2 ≤ cfg.max_depth) ∧
    (∀ (st : HarvestState) (numSeeds fuel2 : Nat) (current : String) (depth : Int)
        (rest : List (String × Int)), st.queue = (current, depth) :: rest →
        depth > cfg.max_depth →
        harvestLoop cfg opts fetch numSeeds (fuel2 + 1) st =
          harvestLoop cfg opts fetch numSeeds fuel2 { st with queue := rest }) := by
  have hfinal : depthInv cfg.max_depth (harvestRun cfg opts fetch fuel seed_keywords) := by
    unfold harvestRun
    apply harvestLoop_inv (P := depthInv cfg.max_depth)
    · intro st current depth rest hq hP
      obtain ⟨hQ, hD⟩ := hP
      exact ⟨fun p hp => hQ p (by rw [hq]; exact List.mem_cons_of_mem _ hp), hD⟩
    · intro st current depth rest hq hd hP
      obtain ⟨hQ, hD⟩ := hP
      have hdep : 0 ≤ depth ∧ depth ≤ cfg.max_depth := by
        have h0 := hQ (current, depth) (by rw [hq]; exact List.mem_cons_self _ _)
        exact ⟨h0.1, by omega⟩
      apply processSuggestions_inv (P := depthInv cfg.max_depth)
      · intro st' h
        exact ⟨fun p hp => absurd hp (List.not_mem_nil p), h.2⟩
      · intro s _ st' hP' _
        obtain ⟨hQ', hD'⟩ := hP'
        simp only [acceptState, depthInv]
        constructor
        · intro p hp
          split at hp
          · rename_i hrec
            rcases List.mem_append.mp hp with hpl | hpr
            · exact hQ' p hpl
            · rw [List.mem_singleton.mp hpr]
              exact ⟨by omega, by omega⟩
          · exact hQ' p hp
        · intro t ht
          rcases List.mem_append.mp ht with htl | htr
          · exact hD' t htl
          · rw [List.mem_singleton.mp htr]
            exact hdep
      · exact ⟨fun p hp => hQ p (by rw [hq]; exact List.mem_cons_of_mem _ hp), hD⟩
    · constructor
      · intro p hp
        rw [initState_queue] at hp
        obtain ⟨seed, _, rfl⟩ := List.mem_map.mp hp
        exact ⟨le_refl 0, hmd⟩
      · intro s hs
        simp [initState_keyword_data] at hs
  refine ⟨?_, hfinal.1, ?_⟩
  · intro r hr
    exact hfinal.2 r (List.mem_mergeSort.mp hr)
  · intro st numSeeds fuel2 current depth rest hq hd
    exact harvestLoop_succ_drop cfg opts fetch numSeeds fuel2 st current depth rest hq hd

/-- Witness for C3 at a concrete run: the single accepted entry of the
`["a"]` run sits at depth 0, within the bound `max_depth = 2`. -/
theorem C3_depth_bound_witness :
    0 ≤ ({ keyword := "b", relevance := 5, depth := 0, parent_keyword := "a" } : Sugg).depth ∧
    ({ keyword := "b", relevance := 5, depth := 0, parent_keyword := "a" } : Sugg).depth ≤
      cfgCap2.max_depth := by
  have hkd : (harvestRun cfgCap2 optsPlain fetchOneB 10 ["a"]).keyword_data =
      [{ keyword := "b", relevance := 5, depth := 0, parent_keyword := "a" }] := by
    decide
  have hres : harvest_keywords cfgCap2 optsPlain fetchOneB 10 ["a"] =
      [{ keyword := "b", relevance := 5, depth := 0, parent_keyword := "a" }] := by
    simp [harvest_keywords, hkd]
  exact (C3_depth_bound cfgCap2 optsPlain fetchOneB 10 ["a"] (by decide)).1
    { keyword := "b", relevance := 5, depth := 0, parent_keyword := "a" }
    (by rw [hres]; exact List.mem_singleton.mpr rfl)

/-! Claim C4. -/

/-- Counterexample to C4 as stated: with `max_suggestions_per_seed = 1`
and the single seed `a`, the seen set already holds `N = 1` keyword
before any suggestion is processed, and the first accepted suggestion
pushes its final size to `2 > N`. -/
theorem C4_breaker_counterexample :
    ((harvestRun cfgCap1 optsPlain fetchOneB 10 ["a"]).all_keywords.length : Int) >
      cfgCap1.max_suggestions_per_seed * ((["a"] : List String).length : Int) := by
  decide

/-- The inner loop, started below the cap, ends below the cap or trips the
breaker: then it exceeds the cap by at most one and has cleared the
queue. -/
theorem processSuggestions_cap (cfg : Config) (opts : HarvestOptions) (numSeeds : Nat)
    (current : String) (depth : Int) :
    ∀ (suggs : List Sugg) (st : HarvestState),
      (st.all_keywords.length : Int) ≤ cfg.max_suggestions_per_seed * (numSeeds : Int) →
      capInv (cfg.max_suggestions_per_seed * (numSeeds : Int))
        (processSuggestions cfg opts numSeeds current depth suggs st) := by
  intro suggs
  induction suggs with
  | nil =>
    intro st h
    rw [processSuggestions_nil]
    exact Or.inl h
  | cons s rest ih =>
    intro st h
    by_cases hc : normKw s.keyword ∈ st.all_keywords ∨ normKw s.keyword = current
    · rw [processSuggestions_cons_skip _ _ _ _ _ _ _ _ hc]
      exact ih st h
    · have hk : normKw s.keyword ∉ st.all_keywords := fun hm => hc (Or.inl hm)
      have hlen : (acceptState cfg opts current depth st s).all_keywords.length =
          st.all_keywords.length + 1 := by
        simp only [acceptState]
        exact length_setAdd_of_not_mem _ _ hk
      by_cases htrip : ((acceptState cfg opts current depth st s).all_keywords.length : Int) ≥
          cfg.max_suggestions_per_seed * (numSeeds : Int)
      · rw [processSuggestions_cons_clear _ _ _ _ _ _ _ _ hc htrip]
        refine Or.inr ⟨?_, rfl⟩
        show ((acceptState cfg opts current depth st s).all_keywords.length : Int) ≤ _
        rw [hlen]
        push_cast
        omega
      · rw [processSuggestions_cons_go _ _ _ _ _ _ _ _ hc htrip]
        apply ih
        rw [hlen] at htrip ⊢
        push_cast at htrip ⊢
        omega

/-- C4 (amended): under the precondition `max_suggestions_per_seed ≥ 1`,
the final size of the seen set never exceeds
`N + 1 = max_suggestions_per_seed * len(seeds) + 1`.  The breaker is
checked after each accepted suggestion and no further acceptance happens
once the set has reached `N`; the set can end at `N + 1` because the
distinct seeds alone may already fill it to `N`, and the breaker only
fires after an acceptance. -/
theorem C4_breaker_soft_cap (cfg : Config) (opts : HarvestOptions)
    (fetch : String → List Sugg) (fuel : Nat) (seed_keywords : List String)
    (hcap : 1 ≤ cfg.max_suggestions_per_seed) :
    ((harvestRun cfg opts fetch fuel seed_keywords).all_keywords.length : Int) ≤
      cfg.max_suggestions_per_seed * (seed_keywords.length : Int) + 1 := by
  have hfinal : capInv (cfg.max_suggestions_per_seed * (seed_keywords.length : Int))
      (harvestRun cfg opts fetch fuel seed_keywords) := by
    unfold harvestRun
    apply harvestLoop_inv
      (P := capInv (cfg.max_suggestions_per_seed * (seed_keywords.length : Int)))
    · intro st current depth rest hq hP
      rcases hP with hP | ⟨_, hP2⟩
      · exact Or.inl hP
      · rw [hP2] at hq
        cases hq
    · intro st current depth rest hq _ hP
      have hle : (st.all_keywords.length : Int) ≤
          cfg.max_suggestions_per_seed * (seed_keywords.length : Int) := by
        rcases hP with hP | ⟨_, hP2⟩
        · exact hP
        · rw [hP2] at hq
          cases hq
      exact processSuggestions_cap cfg opts seed_keywords.length current depth _ _ hle
    · refine Or.inl ?_
      have h1 : ((initState seed_keywords).all_keywords.length : Int) ≤
          (seed_keywords.length : Int) := by
        exact_mod_cast initState_all_keywords_length_le seed_keywords
      have h2 : (seed_keywords.length : Int) ≤
          cfg.max_suggestions_per_seed * (seed_keywords.length : Int) :=
        le_mul_of_one_le_left (Int.ofNat_nonneg _) hcap
      omega
  rcases hfinal with h | ⟨h, _⟩
  · omega
  · exact h

/-- Witness for C4 (amended) at a concrete run: cap 2, one seed, one
accepted suggestion — final seen size 2 respects the soft cap 3. -/
theorem C4_breaker_soft_cap_witness :
    ((harvestRun cfgCap2 optsPlain fetchOneB 10 ["a"]).all_keywords.length : Int) ≤
      cfgCap2.max_suggestions_per_seed * ((["a"] : List String).length : Int) + 1 :=
  C4_breaker_soft_cap cfgCap2 optsPlain fetchOneB 10 ["a"] (by decide)

/-! Claim C5. -/

/-- Counterexample to C5 as stated: with cap 2 and the batch `[b, c]`
fetched for the seed `a`, accepting `b` trips the breaker and the run
stops at once — the remaining suggestion `c` of the same batch is brand
new, yet is neither dedup-checked nor accepted: the final state has no
trace of `c`. -/
theorem C5_break_counterexample :
    fetchBC "a" = [{ keyword := "b", relevance := 5 }, { keyword := "c", relevance := 4 }] ∧
    (harvestRun cfgCap2 optsPlain fetchBC 10 ["a"]).all_keywords = ["a", "b"] ∧
    (harvestRun cfgCap2 optsPlain fetchBC 10 ["a"]).keyword_data =
      [{ keyword := "b", relevance := 5, depth := 0, parent_keyword := "a" }] := by
  refine ⟨by decide, by decide, by decide⟩

/-- C5 (amended): when the circuit-breaker condition becomes true upon
accepting one suggestion of the current keyword's combined list, the
engine clears the queue and exits the inner loop immediately: the
remaining suggestions of the batch are discarded unprocessed, so the
result is the same as if the batch had ended at the tripping
suggestion. -/
theorem C5_break_discards_rest (cfg : Config) (opts : HarvestOptions) (numSeeds : Nat)
    (current : String) (depth : Int) (s : Sugg) (rest : List Sugg) (st : HarvestState)
    (hnew : ¬(normKw s.keyword ∈ st.all_keywords ∨ normKw s.keyword = current))
    (htrip : ((acceptState cfg opts current depth st s).all_keywords.length : Int) ≥
      cfg.max_suggestions_per_seed * (numSeeds : Int)) :
    processSuggestions cfg opts numSeeds current depth (s :: rest) st =
      { acceptState cfg opts current depth st s with queue := [] } ∧
    processSuggestions cfg opts numSeeds current depth (s :: rest) st =
      processSuggestions cfg opts numSeeds current depth [s] st := by
  have h1 := processSuggestions_cons_clear cfg opts numSeeds current depth s rest st hnew htrip
  have h2 := processSuggestions_cons_clear cfg opts numSeeds current depth s [] st hnew htrip
  exact ⟨h1, by rw [h1, h2]⟩

/-- Witness for C5 (amended): the concrete tripping batch `[b, c]` of the
counterexample run produces exactly the state that the one-element batch
`[b]` produces. -/
theorem C5_break_discards_rest_witness :
    processSuggestions cfgCap2 optsPlain 1 "a" 0
        [{ keyword := "b", relevance := 5 }, { keyword := "c", relevance := 4 }]
        (initState ["a"]) =
      processSuggestions cfgCap2 optsPlain 1 "a" 0
        [{ keyword := "b", relevance := 5 }] (initState ["a"]) :=
  (C5_break_discards_rest cfgCap2 optsPlain 1 "a" 0
    { keyword := "b", relevance := 5 } [{ keyword := "c", relevance := 4 }]
    (initState ["a"]) (by decide) (by decide)).2

/-! Claim C6. -/

/-- Counterexample to C6 as stated: a completed physical request that
returns status 404 is answered without any rate-limit sleep, although the
claim requires the delay after every physical request regardless of
outcome. -/
theorem C6_sleep_counterexample :
    http404 "q" = .response 404 (some (.arr [.str "a", .arr []])) ∧
    (fetchSuggestionsT cfgDefault http404 "q").sleeps = 0 :=
  ⟨rfl, rfl⟩

/-- C6 (amended): `_fetch_suggestions` sleeps at most once per call, and
it sleeps exactly when the call runs the full success path — status 200,
parseable body, a list of length at least 2, an enumerable suggestions
element, and an exception-free result-building loop.  Every early-return
path (non-200 status, decode failure, malformed structure, timeout, any
other error) skips the rate-limit delay. -/
theorem C6_sleep_on_success_only (cfg : Config) (http : String → HttpResult)
    (query : String) :
    (fetchSuggestionsT cfg http query).sleeps ≤ 1 ∧
    ((fetchSuggestionsT cfg http query).sleeps = 1 ↔ successPath cfg http query) := by
  cases hr : http query with
  | timeout =>
    simp [fetchSuggestionsT, successPath, hr]
  | failure =>
    simp [fetchSuggestionsT, successPath, hr]
  | response status body =>
    by_cases hs : status ≠ 200
    · simp [fetchSuggestionsT, successPath, hr, hs]
    · rw [not_not] at hs
      subst hs
      cases body with
      | none =>
        simp [fetchSuggestionsT, successPath, hr]
      | some data =>
        cases data with
        | arr items =>
          by_cases hlen : items.length < 2
          · simp [fetchSuggestionsT, successPath, hr, hlen]
          · cases hpe : pyEnumItems (items[1]?.getD JVal.null) with
            | none =>
              simp [fetchSuggestionsT, successPath, hr, hlen, hpe]
            | some suggItems =>
              cases hbr : buildResults cfg.min_relevance query suggItems
                  (relevanceScoresOf items) 0 with
              | none =>
                simp [fetchSuggestionsT, successPath, hr, hlen, hpe, hbr]
              | some results =>
                simp only [fetchSuggestionsT, successPath, hr, hlen, hpe, hbr]
                simp [hpe, hbr]
                omega
        | null => simp [fetchSuggestionsT, successPath, hr]
        | bool b => simp [fetchSuggestionsT, successPath, hr]
        | num n => simp [fetchSuggestionsT, successPath, hr]
        | str s => simp [fetchSuggestionsT, successPath, hr]
        | obj kvs => simp [fetchSuggestionsT, successPath, hr]

/-! Claim C7. -/

/-- Counterexample to C7 as stated: on the claimed 4-element structure
`[echoed_query, [suggested_strings], [metadata], {relevance_scores}]` the
code reads `data[4]`, which does not exist, so the score 500 stored under
the named key in the 4th element is ignored and the suggestion comes back
with relevance 0. -/
theorem C7_fourth_element_counterexample :
    http4elem "q" = .response 200 (some (.arr
      [.str "q", .arr [.str "s1"], .arr [],
       .obj [("google:suggestrelevance", .arr [.num 500])]])) ∧
    (fetchSuggestions cfgDefault http4elem "q").map SuggJ.relevance = [0] ∧
    (fetchSuggestions cfgDefault http4elem "q").map SuggJ.relevance ≠ [500] := by
  refine ⟨rfl, rfl, by decide⟩

/-- The result-building loop on a well-formed suggestions list (strings)
and score list (integers) computes exactly the spec's extraction rule:
index-aligned scores, default 0 past the end, filtered by
`min_relevance`. -/
theorem buildResults_str_num (minRel : Int) (query : String) :
    ∀ (suggs : List String) (scores : List Int) (idx : Nat),
      buildResults minRel query (suggs.map JVal.str) (.arr (scores.map JVal.num)) idx =
        some (specBuild minRel query suggs scores idx) := by
  intro suggs
  induction suggs with
  | nil =>
    intro scores idx
    rfl
  | cons s rest ih =>
    intro scores idx
    have hsc : scoreAt (.arr (scores.map JVal.num)) idx = some (scores.getD idx 0) := by
      simp only [scoreAt, pyLen, List.length_map]
      by_cases hidx : idx < scores.length
      · rw [if_pos hidx]
        rw [List.getD_eq_getElem _ _ (by simpa using hidx), List.getElem_map]
        rw [List.getD_eq_getElem _ _ hidx]
        rfl
      · rw [if_neg hidx]
        rw [List.getD_eq_default _ _ (by omega)]
    simp only [List.map_cons, buildResults, specBuild, hsc, ih scores (idx + 1)]
    split <;> rfl

/-- C7 (amended): the chrome-client response carries its relevance-score
dict as the fifth element (index 4), not the fourth: for a response
`[e0, [suggested_strings], e2, e3, {scores}, ...]` whose fifth element
holds an integer list under `google:suggestrelevance`, each suggestion's
relevance is the score at its index when one exists, else 0, and
suggestions below `min_relevance` are dropped. -/
theorem C7_relevance_from_fifth_element (cfg : Config) (http : String → HttpResult)
    (query : String) (e0 e2 e3 : JVal) (kvs : List (String × JVal))
    (suggs : List String) (scores : List Int) (extra : List JVal)
    (hr : http query = .response 200 (some (.arr
      (e0 :: .arr (suggs.map JVal.str) :: e2 :: e3 :: .obj kvs :: extra))))
    (hkey : jGet kvs "google:suggestrelevance" = some (.arr (scores.map JVal.num))) :
    fetchSuggestions cfg http query = specBuild cfg.min_relevance query suggs scores 0 := by
  have hscores : relevanceScoresOf
      (e0 :: .arr (suggs.map JVal.str) :: e2 :: e3 :: .obj kvs :: extra) =
      .arr (scores.map JVal.num) := by
    simp only [relevanceScoresOf, List.length_cons]
    rw [if_pos (by omega)]
    simp [hkey]
  simp only [fetchSuggestions, fetchSuggestionsT, hr]
  rw [if_neg (show ¬ ((200 : Nat) ≠ 200) by omega)]
  simp only [List.length_cons]
  rw [if_neg (by omega)]
  simp only [List.getD_cons_succ, List.getD_cons_zero, pyEnumItems, hscores,
    buildResults_str_num]

/-- Witness for C7 (amended) at the concrete 5-element oracle: two
suggested strings, one score — relevance 500 for the first, default 0 for
the second. -/
theorem C7_relevance_from_fifth_element_witness :
    fetchSuggestions cfgDefault http5elem "q" =
      specBuild cfgDefault.min_relevance "q" ["s1", "s2"] [500] 0 :=
  C7_relevance_from_fifth_element cfgDefault http5elem "q" (.str "q") (.arr []) (.arr [])
    [("google:suggestrelevance", .arr [.num 500])] ["s1", "s2"] [500] [] rfl rfl

/-! Claim C8. -/

/-- Counterexample to C8 as stated: a source suggestion `"B c "` is
accepted — its normalised form `"b c"` is what enters the seen set — but
the entry appended to the returned results keeps the raw string
`"B c "`, which differs from its own lower-cased trimmed form. -/
theorem C8_normalised_keyword_counterexample :
    harvest_keywords cfgCap2 optsPlain fetchRawCase 10 ["a"] =
      [{ keyword := "B c ", relevance := 5, depth := 0, parent_keyword := "a" }] ∧
    normKw "B c " ≠ "B c " := by
  constructor
  · have hkd : (harvestRun cfgCap2 optsPlain fetchRawCase 10 ["a"]).keyword_data =
        [{ keyword := "B c ", relevance := 5, depth := 0, parent_keyword := "a" }] := by
      decide
    simp [harvest_keywords, hkd]
  · decide

/-- C8 (amended): every Suggestion appended to the results carries the
suggestion source's string verbatim — possibly un-normalised; the
lower-cased trimmed form is used only as the dedup key, which is recorded
in the seen set. -/
theorem C8_keyword_verbatim (cfg : Config) (opts : HarvestOptions)
    (fetch : String → List Sugg) (fuel : Nat) (seed_keywords : List String) :
    ∀ r ∈ harvest_keywords cfg opts fetch fuel seed_keywords,
      (∃ q s₀, s₀ ∈ fetch q ∧ s₀.keyword = r.keyword) ∧
      normKw r.keyword ∈ (harvestRun cfg opts fetch fuel seed_keywords).all_keywords := by
  have hfinal : (sourceInv fetch (harvestRun cfg opts fetch fuel seed_keywords)) ∧
      ∀ s ∈ (harvestRun cfg opts fetch fuel seed_keywords).keyword_data,
        normKw s.keyword ∈ (harvestRun cfg opts fetch fuel seed_keywords).all_keywords := by
    have h := harvestLoop_inv cfg opts fetch seed_keywords.length
      (P := fun st => sourceInv fetch st ∧
        ∀ s ∈ st.keyword_data, normKw s.keyword ∈ st.all_keywords)
      (by
        intro st current depth rest _ hP
        exact hP)
      (by
        intro st current depth rest _ _ hP
        apply processSuggestions_inv
          (P := fun st => sourceInv fetch st ∧
            ∀ s ∈ st.keyword_data, normKw s.keyword ∈ st.all_keywords)
        · intro st' h
          exact h
        · intro s hs st' hP' _
          obtain ⟨h1, h2⟩ := hP'
          constructor
          · intro t ht
            rcases List.mem_append.mp ht with htl | htr
            · exact h1 t htl
            · obtain ⟨q, hq⟩ := mem_gather_from_fetch opts fetch current depth s hs
              rw [List.mem_singleton.mp htr]
              exact ⟨q, s, hq, rfl⟩
          · intro t ht
            rcases List.mem_append.mp ht with htl | htr
            · exact mem_setAdd_of_mem _ _ _ (h2 t htl)
            · rw [List.mem_singleton.mp htr]
              exact mem_setAdd_self _ _
        · exact hP)
      fuel (initState seed_keywords)
      (by
        constructor
        · intro s hs
          simp [initState_keyword_data] at hs
        · intro s hs
          simp [initState_keyword_data] at hs)
    exact h
  intro r hr
  have hr' := List.mem_mergeSort.mp hr
  exact ⟨hfinal.1 r hr', hfinal.2 r hr'⟩

/-- Witness for C8 (amended) at a concrete run: the single result of the
`["a"]` run carries the source string `b` verbatim, and its normalised
form is in the seen set. -/
theorem C8_keyword_verbatim_witness :
    (∃ q s₀, s₀ ∈ fetchOneB q ∧ s₀.keyword = "b") ∧
    normKw "b" ∈ (harvestRun cfgCap2 optsPlain fetchOneB 10 ["a"]).all_keywords := by
  have hkd : (harvestRun cfgCap2 optsPlain fetchOneB 10 ["a"]).keyword_data =
      [{ keyword := "b", relevance := 5, depth := 0, parent_keyword := "a" }] := by
    decide
  have hres : harvest_keywords cfgCap2 optsPlain fetchOneB 10 ["a"] =
      [{ keyword := "b", relevance := 5, depth := 0, parent_keyword := "a" }] := by
    simp [harvest_keywords, hkd]
  exact C8_keyword_verbatim cfgCap2 optsPlain fetchOneB 10 ["a"]
    { keyword := "b", relevance := 5, depth := 0, parent_keyword := "a" }
    (by rw [hres]; exact List.mem_singleton.mpr rfl)

/-! Claim C9. -/

/-- Counterexample to C9 as stated: with the duplicate seeds
`["red", "red"]` the queue after initialisation holds two entries, not
exactly one — `queue.append` runs unconditionally for every seed. -/
theorem C9_duplicate_seed_counterexample :
    (initState ["red", "red"]).queue.length ≠ 1 := by
  decide

/-- C9 (amended): with two identical seeds `["red", "red"]` the second
seed contributes no new element to the seen set — it ends up as the single
element `"red"` — but the frontier queue receives one entry per seed,
duplicates included: after initialisation it is
`[("red", 0), ("red", 0)]`. -/
theorem C9_duplicate_seed_state :
    initState ["red", "red"] =
      { queue := [("red", 0), ("red", 0)], all_keywords := ["red"],
        keyword_data := [] } := by
  decide

/-! Claim C10. -/

/-- C10: every transient fetch failure — timeout, network failure,
non-200 status, or malformed payload — makes `_fetch_suggestions` return
the empty suggestion list instead of raising; and a frontier keyword all
of whose queries yield no suggestions leaves results and seen set
untouched, the loop proceeding with the remaining queue entries (the
embedded run is total: no exception escapes the fetch). -/
theorem C10_transient_failure (cfg : Config) (http : String → HttpResult) (query : String)
    (hfail : transientFailure (http query)) :
    fetchSuggestions cfg http query = [] ∧
    (∀ (opts : HarvestOptions) (fetch : String → List Sugg) (numSeeds fuel : Nat)
      (st : HarvestState) (current : String) (depth : Int) (rest : List (String × Int)),
      st.queue = (current, depth) :: rest → ¬ depth > cfg.max_depth →
      gatherSuggestions opts fetch current depth = [] →
      harvestLoop cfg opts fetch numSeeds (fuel + 1) st =
        harvestLoop cfg opts fetch numSeeds fuel { st with queue := rest }) := by
  constructor
  · rcases hfail with h | h | ⟨status, body, h, hs⟩ | h | ⟨v, h, hv⟩
    · simp [fetchSuggestions, fetchSuggestionsT, h]
    · simp [fetchSuggestions, fetchSuggestionsT, h]
    · simp [fetchSuggestions, fetchSuggestionsT, h, hs]
    · simp [fetchSuggestions, fetchSuggestionsT, h]
    · cases v with
      | arr items =>
        have hlen := hv items rfl
        simp [fetchSuggestions, fetchSuggestionsT, h, hlen]
      | null => simp [fetchSuggestions, fetchSuggestionsT, h]
      | bool b => simp [fetchSuggestions, fetchSuggestionsT, h]
      | num n => simp [fetchSuggestions, fetchSuggestionsT, h]
      | str s => simp [fetchSuggestions, fetchSuggestionsT, h]
      | obj kvs => simp [fetchSuggestions, fetchSuggestionsT, h]
  · intro opts fetch numSeeds fuel st current depth rest hq hd hg
    rw [harvestLoop_succ_go cfg opts fetch numSeeds fuel st current depth rest hq hd, hg,
      processSuggestions_nil]

/-- Witness for C10: the always-timing-out oracle contributes zero
suggestions for the query `a`. -/
theorem C10_transient_failure_witness :
    fetchSuggestions cfgDefault httpTimeout "a" = [] :=
  (C10_transient_failure cfgDefault httpTimeout "a" (Or.inl rfl)).1

end Harvester
